import Mathlib

/-!
# cpp_lab2: a benchmark harness for an elementwise predicate

Shallow embedding of `src/main.cpp`.

* `int` is a 32-bit signed integer.  Values are `Int`.  Signed arithmetic whose result is
  used as an offset, a size or an operand and leaves the range `[INT_MIN, INT_MAX]` is
  undefined behaviour in C++ and is modelled as `none`.  The counter `i` of the loop in
  `RandomSeq` is only compared after its increment; there the increment wraps
  (two's complement), as the compiled loop does.
* `std::size_t` values are `Nat`; the conversion to `int` is the modular narrowing of
  C++20 and the conversion of an `int` to `std::size_t` is modulo `2^64`.
* `std::vector<int>` is `List Int`.
* `double` is IEEE 754 binary64: a finite value is an integer multiple of `2^-1074`, sums
  and quotients are rounded to nearest with ties to even and overflow to an infinity,
  and comparisons with a value that is not a number are false.
-/

namespace CppLab2

/-! ## Machine integers -/

/-- Smallest value of a 32-bit `int`. -/
def INT_MIN : Int := -2147483648

/-- Largest value of a 32-bit `int`. -/
def INT_MAX : Int := 2147483647

/-- Result of a signed `int` computation whose mathematical value is `v`:
the value itself when representable, undefined behaviour (`none`) otherwise. -/
def checkedInt (v : Int) : Option Int :=
  if INT_MIN ≤ v ∧ v ≤ INT_MAX then some v else none

/-- The expression `a + b` on `int` operands. -/
def addInt (a b : Int) : Option Int := checkedInt (a + b)

/-- The expression `a * b` on `int` operands. -/
def mulInt (a b : Int) : Option Int := checkedInt (a * b)

/-- Conversion of an unsigned value (`std::size_t`, `unsigned int`) to `int`: the result
is the value modulo `2^32` in two's complement. -/
def narrowToInt (n : Nat) : Int := ((n : Int) + 2147483648) % 4294967296 - 2147483648

/-! ## Part3: the partition step (lines 96-104) -/

/-- The range constructor `std::vector<int>(seq.begin() + first, seq.begin() + last)`.
It is defined only for `0 ≤ first ≤ last ≤ seq.size()`. -/
def vectorRange (seq : List Int) (first last : Int) : Option (List Int) :=
  if 0 ≤ first ∧ first ≤ last ∧ last ≤ (seq.length : Int) then
    some ((seq.drop first.toNat).take (last - first).toNat)
  else none

/-- The variables the partition loop updates: the vector `chunks` and the offset `start`. -/
structure PartitionState where
  chunks : List (List Int)
  start : Int
deriving DecidableEq

/-- One pass through the body of `for (int i = 0; i < K; ++i)` (lines 101-103). -/
def partitionBody (seq : List Int) (chunk_size remainder : Int) (i : Nat)
    (s : PartitionState) : Option PartitionState :=
  (addInt s.start chunk_size).bind fun e1 =>
  (addInt e1 (if (i : Int) < remainder then 1 else 0)).bind fun end_ =>
  (vectorRange seq s.start end_).bind fun chunk =>
  some { chunks := s.chunks.set i chunk, start := end_ }

/-- State of the partition loop after its first `n` iterations (`i = 0, ..., n - 1`),
starting from `chunks(K)`, `start = 0` (lines 96-99). -/
def partitionIter (seq : List Int) (K : Nat) : Nat → Option PartitionState
  | 0 => some { chunks := List.replicate K [], start := 0 }
  | n + 1 =>
    (partitionIter seq K n).bind
      (partitionBody seq (narrowToInt (seq.length / K)) (narrowToInt (seq.length % K)) n)

/-- The vector `chunks` when the partition loop has finished its `K` iterations. -/
def Part3_partition (seq : List Int) (K : Nat) : Option (List (List Int)) :=
  (partitionIter seq K K).map fun s => s.chunks

/-- The values `K` takes in `for (int K = 2; K <= 16; K += 2)` (line 92). -/
def sweepKs : List Nat := [2, 4, 6, 8, 10, 12, 14, 16]

/-- Offset at which chunk `i` starts when a sequence of length `L` is cut into `K` chunks. -/
def chunkStart (L K i : Nat) : Nat := i * (L / K) + min i (L % K)

/-- The copy `seq[chunkStart i, chunkStart (i + 1))` of a sequence cut into `K` chunks. -/
def chunkOf (seq : List Int) (K i : Nat) : List Int :=
  (seq.drop (chunkStart seq.length K i)).take
    (chunkStart seq.length K (i + 1) - chunkStart seq.length K i)

/-! ## Predicate (lines 14-16) -/

/-- The `int` subexpression `x * x + x` of `Predicate`. -/
def Predicate_int (x : Int) : Option Int :=
  (mulInt x x).bind fun sq => addInt sq x

/-- `Predicate(x)`, that is `x * x + x - cos(x) > 0`, with `cos` the real cosine: the `int`
value `x * x + x` is converted to a real number and compared after the subtraction.
The result is `none` when the `int` subexpression overflows. -/
def Predicate (x : Int) : Option Prop :=
  (Predicate_int x).map fun v => (v : ℝ) - Real.cos (x : ℝ) > 0

/-! ## RandomSeq (lines 18-27) -/

/-- Conversion of an `int` to `std::size_t` (modulo `2^64`). -/
def toSizeT (v : Int) : Nat := (v % 18446744073709551616).toNat

/-- The value an `int` holds after a result `v` is stored in it with two's complement
wrap-around. -/
def wrapInt (v : Int) : Int := (v + 2147483648) % 4294967296 - 2147483648

/-- The loop `for (int i = 0; i < size; i++) rand_seq.push_back(distribution(mt_engine))`,
entered with the current `i`, engine state and `rand_seq`.  `distribution` is the call
operator of the distribution object: it reads the engine, returns an unsigned value and
the new engine state.  The guard compares `i`, converted to `std::size_t`, with `size`.
The counter is only compared after `i++`; at `INT_MAX` the increment stores `INT_MIN`
(two's complement), which is what the compiled loop does.  The first argument bounds the
number of guard evaluations; the result is `none` when that bound is used up. -/
def RandomSeq_loop {E : Type} (size : Nat) (distribution : E → Nat × E) :
    Nat → Int → E → List Int → Option (List Int × E)
  | 0, _, _, _ => none
  | fuel + 1, i, mt_engine, rand_seq =>
    if toSizeT i < size then
      RandomSeq_loop size distribution fuel (wrapInt (i + 1)) (distribution mt_engine).2
        (rand_seq ++ [narrowToInt (distribution mt_engine).1])
    else some (rand_seq, mt_engine)

/-- `RandomSeq(size, mt_engine)`: the returned vector and the engine state afterwards.
The guard of the loop is evaluated at most `size + 1` times. -/
def RandomSeq {E : Type} (size : Nat) (distribution : E → Nat × E) (mt_engine : E) :
    Option (List Int × E) :=
  RandomSeq_loop size distribution (size + 1) 0 mt_engine []

/-! ## main (lines 139-157) -/

/-- The variables of `main` that the generation loop updates. -/
structure MainState (E : Type) where
  sequences : List (List Int)
  starting_size : Int
  mt_engine : E

/-- One pass through the body of `for (int i = 0; i < 5; ++i)` (lines 148-149). -/
def mainBody {E : Type} (distribution : E → Nat × E) (s : MainState E) :
    Option (MainState E) :=
  (RandomSeq (toSizeT s.starting_size) distribution s.mt_engine).bind fun r =>
  (mulInt s.starting_size 10).bind fun next_size =>
  some { sequences := s.sequences ++ [r.1], starting_size := next_size, mt_engine := r.2 }

/-- State of `main` after the first `n` iterations of the generation loop. -/
def mainIter {E : Type} (distribution : E → Nat × E) (mt_engine : E) :
    Nat → Option (MainState E)
  | 0 => some { sequences := [], starting_size := 100, mt_engine := mt_engine }
  | n + 1 => (mainIter distribution mt_engine n).bind (mainBody distribution)

/-- The vector `sequences` that `main` hands to `Part1`, `Part2` and `Part3`. -/
def main_sequences {E : Type} (distribution : E → Nat × E) (mt_engine : E) :
    Option (List (List Int)) :=
  (mainIter distribution mt_engine 5).map fun s => s.sequences

/-- Progress of one worker thread of a trial: not yet created by `emplace_back`, running
`std::for_each` over its chunk, or past its call `done.count_down()`. -/
inductive Worker where
  | pending
  | running
  | signalled
deriving DecidableEq

/-- State of one trial: the internal counter of `std::latch done` and one worker per
element of `chunks`. -/
structure TrialState where
  done : Int
  workers : List Worker
deriving DecidableEq

/-- State at line 107: `std::latch done(K)` and no thread created yet. -/
def trialInit (K : Nat) (chunks : List (List Int)) : TrialState :=
  { done := (K : Int), workers := chunks.map fun _ => Worker.pending }

/-- The two kinds of step of a trial: the orchestrator creates the thread of chunk `w`,
or worker `w` leaves `std::for_each` and executes `done.count_down()`. -/
inductive TrialEvent where
  | launch (w : Nat)
  | finish (w : Nat)
deriving DecidableEq

/-- Effect of one step; `none` when the step is not enabled in the state. -/
def trialStep (s : TrialState) : TrialEvent → Option TrialState
  | TrialEvent.launch w =>
    if s.workers.get? w = some Worker.pending then
      some { s with workers := s.workers.set w Worker.running }
    else none
  | TrialEvent.finish w =>
    if s.workers.get? w = some Worker.running then
      some { done := s.done - 1, workers := s.workers.set w Worker.signalled }
    else none

/-- State reached from `s` by a sequence of steps, in any interleaving. -/
def runTrial (s : TrialState) : List TrialEvent → Option TrialState
  | [] => some s
  | ev :: evs => (trialStep s ev).bind fun s' => runTrial s' evs

/-- Whether `done.wait()` returns in the state: the counter of the latch is zero. -/
def waitReleased (s : TrialState) : Bool := s.done == 0

/-- Number of workers that have executed `done.count_down()`. -/
def signalledCount (s : TrialState) : Nat := s.workers.count Worker.signalled

/-! ## Part3: double arithmetic and the sweep over K (lines 89-130) -/

/-- Values of type `double`.  A finite value is an integer multiple of `2^-1074`, the
smallest positive double: `fin m` is the number `m * 2^-1074`.  The two zeros are not
distinguished. -/
inductive Double where
  | nan
  | negInf
  | fin (m : Int)
  | posInf
deriving DecidableEq

/-- The integer nearest to `p / q`, ties going to the even one. -/
def roundHalfEven (p q : Nat) : Nat :=
  if 2 * (p % q) < q then p / q
  else if q < 2 * (p % q) then p / q + 1
  else if (p / q) % 2 = 0 then p / q else p / q + 1

/-- The strides of the search for the leading bit in `excessBits`. -/
def bitStrides : List Nat := [2048, 1024, 512, 256, 128, 64, 32, 16, 8, 4, 2, 1]

/-- Number of low-order bits that `v` has beyond 53 significant bits: the least `s` with
`v / 2^s < 2^53`, for `v` below `2^4148`.  The search adds a stride to the shift whenever
the shifted value still has more than 53 bits. -/
def excessBits (v : Nat) : Nat :=
  if v < 2 ^ 53 then 0
  else bitStrides.foldl (fun acc k => if 2 ^ 53 ≤ v / 2 ^ (acc + k) then acc + k else acc) 0 + 1

/-- The magnitude `p / q` (in units of `2^-1074`) rounded to 53 significant bits,
round-to-nearest, ties-to-even. -/
def roundMagnitude (p q : Nat) : Nat :=
  roundHalfEven p (q * 2 ^ excessBits (p / q)) * 2 ^ excessBits (p / q)

/-- The double nearest to the exact value `(p / q) * 2^-1074`; a magnitude that rounds to
`2^1024` (that is `2^2098` units) or more overflows to an infinity.  The first test keeps
the argument of `excessBits` within its range. -/
def Double.ofRatio (p : Int) (q : Nat) : Double :=
  if p.natAbs / q < 2 ^ 2098 ∧ roundMagnitude p.natAbs q < 2 ^ 2098 then
    Double.fin (if p < 0 then -((roundMagnitude p.natAbs q : Nat) : Int)
      else ((roundMagnitude p.natAbs q : Nat) : Int))
  else if p < 0 then Double.negInf else Double.posInf

/-- The sum `a + b` of two doubles. -/
def Double.add : Double → Double → Double
  | Double.nan, _ => Double.nan
  | _, Double.nan => Double.nan
  | Double.posInf, Double.negInf => Double.nan
  | Double.negInf, Double.posInf => Double.nan
  | Double.posInf, _ => Double.posInf
  | _, Double.posInf => Double.posInf
  | Double.negInf, _ => Double.negInf
  | _, Double.negInf => Double.negInf
  | Double.fin a, Double.fin b => Double.ofRatio (a + b) 1

/-- Conversion of an unsigned integer to `double`. -/
def Double.ofNat (n : Nat) : Double := Double.ofRatio ((n * 2 ^ 1074 : Nat) : Int) 1

/-- The quotient `a / n` of a double by an unsigned integer, which is first converted to
`double`; the divisor is therefore never negative, and a zero divisor is `+0.0`. -/
def Double.divSize (a : Double) (n : Nat) : Double :=
  match a, Double.ofNat n with
  | Double.nan, _ => Double.nan
  | _, Double.nan => Double.nan
  | Double.posInf, Double.posInf => Double.nan
  | Double.negInf, Double.posInf => Double.nan
  | Double.posInf, _ => Double.posInf
  | Double.negInf, _ => Double.negInf
  | Double.fin _, Double.posInf => Double.fin 0
  | Double.fin _, Double.negInf => Double.fin 0
  | Double.fin x, Double.fin d =>
    if d = 0 then (if x = 0 then Double.nan else if x < 0 then Double.negInf else Double.posInf)
    else Double.ofRatio (x * ((2 ^ 1074 : Nat) : Int)) d.natAbs

/-- The comparison `a < b` of two doubles; it is false when an operand is not a number. -/
def Double.lt : Double → Double → Bool
  | Double.nan, _ => false
  | _, Double.nan => false
  | Double.negInf, Double.negInf => false
  | Double.negInf, _ => true
  | _, Double.negInf => false
  | Double.posInf, _ => false
  | Double.fin _, Double.posInf => true
  | Double.fin a, Double.fin b => decide (a < b)

/-- The comparison `a <= b` of two doubles; it is false when an operand is not a number. -/
def Double.le : Double → Double → Bool
  | Double.nan, _ => false
  | _, Double.nan => false
  | Double.negInf, _ => true
  | _, Double.posInf => true
  | Double.posInf, _ => false
  | _, Double.negInf => false
  | Double.fin a, Double.fin b => decide (a ≤ b)

/-- Whether a double is a finite number (`std::isfinite`). -/
def Double.isFinite : Double → Bool
  | Double.fin _ => true
  | _ => false

/-- The initial value of `best_avg_time`, `std::numeric_limits<double>::max()`, which is
`(2^53 - 1) * 2^971`. -/
def DBL_MAX : Double := Double.fin (((2 ^ 53 - 1) * 2 ^ 2045 : Nat) : Int)

/-- The value of `total_time` after the loop over the sequences: `elapsed K j` is the
sample `elapsed_ms` measured for partition count `K` on sequence number `j`. -/
def total_time (elapsed : Nat → Nat → Double) (nseq K : Nat) : Double :=
  (List.range nseq).foldl (fun t j => Double.add t (elapsed K j)) (Double.fin 0)

/-- The quotient `total_time / sequences.size()` of line 125. -/
def avg_time (elapsed : Nat → Nat → Double) (nseq K : Nat) : Double :=
  Double.divSize (total_time elapsed nseq K) nseq

/-- The variables `best_K` and `best_avg_time`. -/
structure SweepState where
  best_K : Nat
  best_avg_time : Double
deriving DecidableEq

/-- The update of lines 125-129 for one value of `K`. -/
def sweepStep (elapsed : Nat → Nat → Double) (nseq : Nat) (s : SweepState) (K : Nat) :
    SweepState :=
  if Double.lt (avg_time elapsed nseq K) s.best_avg_time = true then
    { best_K := K, best_avg_time := avg_time elapsed nseq K }
  else s

/-- The values of `best_K` and `best_avg_time` that `Part3` reports (line 133). -/
def Part3_sweep (elapsed : Nat → Nat → Double) (nseq : Nat) : SweepState :=
  sweepKs.foldl (sweepStep elapsed nseq) { best_K := 0, best_avg_time := DBL_MAX }

/-- Sample timings, whole milliseconds, in which K = 6 and K = 8 tie for the lowest
average. -/
def tiedElapsed (K j : Nat) : Double :=
  Double.ofNat ((((K : Int) - 7) * ((K : Int) - 7)).toNat + j)

/-- Sample timings, whole milliseconds, that grow with K and with the sequence number. -/
def risingElapsed (K j : Nat) : Double := Double.ofNat (K + j)

/-- Sample timings in which every measurement equals the initial value of `best_avg_time`. -/
def saturatedElapsed (_K _j : Nat) : Double := DBL_MAX

/-! ## Facts about machine integers -/

theorem narrowToInt_of_le (n : Nat) (h : (n : Int) ≤ INT_MAX) : narrowToInt n = (n : Int) := by
  unfold narrowToInt
  unfold INT_MAX at h
  omega

theorem checkedInt_of_range (v : Int) (h1 : INT_MIN ≤ v) (h2 : v ≤ INT_MAX) :
    checkedInt v = some v := by
  unfold checkedInt
  rw [if_pos ⟨h1, h2⟩]

theorem toSizeT_natCast (n : Nat) (h : (n : Int) ≤ INT_MAX) : toSizeT (n : Int) = n := by
  unfold INT_MAX at h
  have h1 : (0 : Int) ≤ (n : Int) := Int.ofNat_nonneg _
  have h2 : (n : Int) < 18446744073709551616 := by omega
  unfold toSizeT
  rw [Int.emod_eq_of_lt h1 h2, Int.toNat_ofNat]

/-! ## The partition step -/

theorem chunkStart_succ (L K i : Nat) :
    chunkStart L K (i + 1) = chunkStart L K i + L / K + (if i < L % K then 1 else 0) := by
  unfold chunkStart
  rw [Nat.add_mul]
  split <;> omega

theorem chunkStart_le (L K i : Nat) (hK : 0 < K) (hi : i ≤ K) : chunkStart L K i ≤ L := by
  unfold chunkStart
  have h1 := Nat.div_add_mod L K
  have h2 : i * (L / K) ≤ K * (L / K) := Nat.mul_le_mul_right _ hi
  have h3 := Nat.mod_lt L hK
  omega

theorem chunkStart_full (L K : Nat) (hK : 0 < K) : chunkStart L K K = L := by
  unfold chunkStart
  have h1 := Nat.div_add_mod L K
  have h3 := Nat.mod_lt L hK
  omega

theorem chunkStart_mono (L K i : Nat) : chunkStart L K i ≤ chunkStart L K (i + 1) := by
  rw [chunkStart_succ, Nat.add_assoc]
  exact Nat.le_add_right _ _

theorem set_length_append {α : Type} (xs ys : List α) (y c : α) :
    (xs ++ y :: ys).set xs.length c = xs ++ c :: ys := by
  induction xs with
  | nil => rfl
  | cons x xs ih => simp [ih]

theorem partitionBody_chunkStart (seq : List Int) (K n : Nat) (hK : 0 < K) (hn : n < K)
    (hL : (seq.length : Int) ≤ INT_MAX) (chunks : List (List Int)) :
    partitionBody seq (narrowToInt (seq.length / K)) (narrowToInt (seq.length % K)) n
        { chunks := chunks, start := (chunkStart seq.length K n : Int) }
      = some { chunks := chunks.set n (chunkOf seq K n),
               start := (chunkStart seq.length K (n + 1) : Int) } := by
  have hdiv : seq.length / K ≤ seq.length := Nat.div_le_self _ _
  have hmod : seq.length % K ≤ seq.length := Nat.mod_le _ _
  have hq : narrowToInt (seq.length / K) = ((seq.length / K : Nat) : Int) :=
    narrowToInt_of_le _ (by omega)
  have hr : narrowToInt (seq.length % K) = ((seq.length % K : Nat) : Int) :=
    narrowToInt_of_le _ (by omega)
  have hs := chunkStart_succ seq.length K n
  have hle := chunkStart_le seq.length K (n + 1) hK hn
  have hmono := chunkStart_mono seq.length K n
  unfold INT_MAX at hL
  have hend : (chunkStart seq.length K n : Int) + ((seq.length / K : Nat) : Int)
      + (if (n : Int) < ((seq.length % K : Nat) : Int) then 1 else 0)
      = (chunkStart seq.length K (n + 1) : Int) := by
    rw [hs]
    by_cases hlt : n < seq.length % K
    · have hlt' : (n : Int) < ((seq.length % K : Nat) : Int) := by exact_mod_cast hlt
      rw [if_pos hlt, if_pos hlt']
      push_cast
      ring
    · have hlt' : ¬ (n : Int) < ((seq.length % K : Nat) : Int) := by exact_mod_cast hlt
      rw [if_neg hlt, if_neg hlt']
      push_cast
      ring
  have hmid : chunkStart seq.length K n + seq.length / K ≤ chunkStart seq.length K (n + 1) := by
    rw [hs]
    exact Nat.le_add_right _ _
  have h1 : addInt (chunkStart seq.length K n : Int) ((seq.length / K : Nat) : Int)
      = some ((chunkStart seq.length K n : Int) + ((seq.length / K : Nat) : Int)) := by
    apply checkedInt_of_range <;> simp only [INT_MIN, INT_MAX] <;> omega
  have h2 : addInt ((chunkStart seq.length K n : Int) + ((seq.length / K : Nat) : Int))
      (if (n : Int) < ((seq.length % K : Nat) : Int) then 1 else 0)
      = some (chunkStart seq.length K (n + 1) : Int) := by
    unfold addInt
    rw [hend]
    apply checkedInt_of_range <;> simp only [INT_MIN, INT_MAX] <;> omega
  have h3 : vectorRange seq (chunkStart seq.length K n : Int)
      (chunkStart seq.length K (n + 1) : Int) = some (chunkOf seq K n) := by
    have c1 : (0 : Int) ≤ (chunkStart seq.length K n : Int) := Int.ofNat_nonneg _
    have c2 : (chunkStart seq.length K n : Int) ≤ (chunkStart seq.length K (n + 1) : Int) :=
      Int.ofNat_le.mpr hmono
    have c3 : (chunkStart seq.length K (n + 1) : Int) ≤ (seq.length : Int) :=
      Int.ofNat_le.mpr hle
    have c4 : ((chunkStart seq.length K (n + 1) : Int) - (chunkStart seq.length K n : Int)).toNat
        = chunkStart seq.length K (n + 1) - chunkStart seq.length K n := by omega
    unfold vectorRange chunkOf
    rw [if_pos ⟨c1, c2, c3⟩, c4, Int.toNat_ofNat]
  unfold partitionBody
  rw [hq, hr]
  simp only [h1, h2, h3, Option.bind]

theorem partitionIter_eq (seq : List Int) (K : Nat) (hK : 0 < K)
    (hL : (seq.length : Int) ≤ INT_MAX) (n : Nat) (hn : n ≤ K) :
    partitionIter seq K n = some
      { chunks := (List.range n).map (chunkOf seq K) ++ List.replicate (K - n) [],
        start := (chunkStart seq.length K n : Int) } := by
  induction n with
  | zero => simp [partitionIter, chunkStart]
  | succ n ih =>
    have hn' : n < K := hn
    rw [partitionIter, ih (Nat.le_of_lt hn'), Option.bind,
      partitionBody_chunkStart seq K n hK hn' hL]
    have hrep : List.replicate (K - n) ([] : List Int)
        = [] :: List.replicate (K - (n + 1)) [] := by
      have hk : K - n = (K - (n + 1)) + 1 := by omega
      rw [hk, List.replicate_succ]
    have hlen : ((List.range n).map (chunkOf seq K)).length = n := by simp
    have hset := set_length_append ((List.range n).map (chunkOf seq K))
      (List.replicate (K - (n + 1)) []) [] (chunkOf seq K n)
    rw [hlen] at hset
    rw [hrep, hset, List.range_succ, List.map_append, List.append_assoc]
    rfl

theorem flatten_chunks (seq : List Int) (K n : Nat) :
    ((List.range n).map (chunkOf seq K)).flatten = seq.take (chunkStart seq.length K n) := by
  induction n with
  | zero => simp [chunkStart]
  | succ n ih =>
    have hmono := chunkStart_mono seq.length K n
    have hsplit : chunkStart seq.length K (n + 1)
        = chunkStart seq.length K n
          + (chunkStart seq.length K (n + 1) - chunkStart seq.length K n) := by omega
    rw [List.range_succ, List.map_append, List.flatten_append, ih]
    conv_rhs => rw [hsplit, List.take_add]
    simp [chunkOf]

theorem flatten_replicate_nil (m : Nat) :
    (List.replicate m ([] : List Int)).flatten = [] := by
  induction m with
  | zero => rfl
  | succ m ih => rw [List.replicate_succ, List.flatten_cons, ih]; rfl

theorem length_chunkOf (seq : List Int) (K i : Nat) (hK : 0 < K) (hi : i < K) :
    (chunkOf seq K i).length = seq.length / K + (if i < seq.length % K then 1 else 0) := by
  have hle := chunkStart_le seq.length K (i + 1) hK hi
  have hs := chunkStart_succ seq.length K i
  unfold chunkOf
  rw [List.length_take, List.length_drop, hs]
  rw [hs] at hle
  have e : chunkStart seq.length K i + seq.length / K + (if i < seq.length % K then 1 else 0)
      - chunkStart seq.length K i = seq.length / K + (if i < seq.length % K then 1 else 0) := by
    rw [Nat.add_assoc, Nat.add_sub_cancel_left]
  rw [e]
  apply Nat.min_eq_left
  rw [Nat.add_assoc] at hle
  exact Nat.le_sub_of_add_le (by rw [Nat.add_comm]; exact hle)

theorem Part3_partition_eq (seq : List Int) (K : Nat) (hK : 0 < K)
    (hL : (seq.length : Int) ≤ INT_MAX) :
    Part3_partition seq K = some ((List.range K).map (chunkOf seq K)) := by
  unfold Part3_partition
  rw [partitionIter_eq seq K hK hL K (Nat.le_refl K)]
  simp

theorem mem_sweepKs_pos (K : Nat) (h : K ∈ sweepKs) : 0 < K := by
  unfold sweepKs at h
  simp at h
  omega

theorem Part3_partition_two_none (seq : List Int) (h : seq.length = 2147483648) :
    Part3_partition seq 2 = none := by
  simp [Part3_partition, partitionIter, partitionBody, addInt, checkedInt, vectorRange,
    narrowToInt, INT_MIN, INT_MAX, h]

theorem Part3_partition_four_none (seq : List Int) (h : seq.length = 2147483648) :
    Part3_partition seq 4 = none := by
  simp [Part3_partition, partitionIter, partitionBody, addInt, checkedInt, vectorRange,
    narrowToInt, INT_MIN, INT_MAX, h]

/-- C1 (amended): for every K of the sweep and every sequence whose length fits in an `int`
(including lengths below K and the empty sequence), the partition step of Part3 finishes
with exactly K chunks, their concatenation in order is the sequence itself, and the chunk
sizes sum to its length. -/
theorem Part3_partition_exact (K : Nat) (hK : K ∈ sweepKs) (seq : List Int)
    (hL : (seq.length : Int) ≤ INT_MAX) :
    ∃ chunks, Part3_partition seq K = some chunks ∧ chunks.length = K ∧
      chunks.flatten = seq ∧ (chunks.map List.length).sum = seq.length := by
  have hpos := mem_sweepKs_pos K hK
  have hflat : ((List.range K).map (chunkOf seq K)).flatten = seq := by
    rw [flatten_chunks, chunkStart_full _ _ hpos, List.take_length]
  refine ⟨(List.range K).map (chunkOf seq K), Part3_partition_eq seq K hpos hL, ?_, hflat, ?_⟩
  · simp
  · rw [← List.length_flatten, hflat]

/-- Witness for C1: seven elements in four chunks. -/
theorem Part3_partition_exact_witness :
    4 ∈ sweepKs ∧ (([1, 2, 3, 4, 5, 6, 7] : List Int).length : Int) ≤ INT_MAX ∧
    ∃ chunks, Part3_partition [1, 2, 3, 4, 5, 6, 7] 4 = some chunks ∧ chunks.length = 4 ∧
      chunks.flatten = [1, 2, 3, 4, 5, 6, 7] ∧
      (chunks.map List.length).sum = ([1, 2, 3, 4, 5, 6, 7] : List Int).length :=
  ⟨by decide, by decide, Part3_partition_exact 4 (by decide) [1, 2, 3, 4, 5, 6, 7] (by decide)⟩

/-- C1 as stated fails: on a sequence of 2^31 elements and K = 2 the second chunk end
`start + chunk_size` leaves the range of `int`, so no chunks are produced. -/
theorem Part3_partition_exact_fails :
    2 ∈ sweepKs ∧
    ¬ ∃ chunks, Part3_partition (List.replicate 2147483648 (0 : Int)) 2 = some chunks ∧
      chunks.length = 2 ∧ chunks.flatten = List.replicate 2147483648 (0 : Int) := by
  refine ⟨by decide, ?_⟩
  rintro ⟨chunks, h, _⟩
  rw [Part3_partition_two_none _ (List.length_replicate _ _)] at h
  exact Option.noConfusion h

/-- C2 (amended): for every K of the sweep, every sequence whose length L fits in an `int`
and every chunk index i below K, chunk i has size L/K + 1 when i < L % K and L/K otherwise;
so every chunk size is L/K or L/K + 1, a sequence of length 100 with K = 4 gives sizes
[25, 25, 25, 25] and one of length 101 gives [26, 25, 25, 25]. -/
theorem Part3_chunk_sizes (K : Nat) (hK : K ∈ sweepKs) (seq : List Int)
    (hL : (seq.length : Int) ≤ INT_MAX) :
    ∃ chunks, Part3_partition seq K = some chunks ∧
      (∀ i, i < K → (chunks.get? i).map List.length
          = some (seq.length / K + (if i < seq.length % K then 1 else 0))) ∧
      (∀ c ∈ chunks, c.length = seq.length / K ∨ c.length = seq.length / K + 1) ∧
      (K = 4 → seq.length = 100 → chunks.map List.length = [25, 25, 25, 25]) ∧
      (K = 4 → seq.length = 101 → chunks.map List.length = [26, 25, 25, 25]) := by
  have hpos := mem_sweepKs_pos K hK
  have hmap : ∀ L : Nat, seq.length = L →
      ((List.range 4).map (chunkOf seq 4)).map List.length
        = (List.range 4).map (fun i => L / 4 + (if i < L % 4 then 1 else 0)) := by
    intro L hLen
    rw [List.map_map]
    apply List.map_congr_left
    intro i hi
    rw [Function.comp_apply, length_chunkOf seq 4 i (by decide) (List.mem_range.mp hi), hLen]
  refine ⟨(List.range K).map (chunkOf seq K), Part3_partition_eq seq K hpos hL, ?_, ?_, ?_, ?_⟩
  · intro i hi
    rw [List.get?_eq_getElem?, List.getElem?_map, List.getElem?_range hi]
    simp only [Option.map]
    rw [length_chunkOf seq K i hpos hi]
  · intro c hc
    obtain ⟨i, hi, rfl⟩ := List.mem_map.mp hc
    rw [length_chunkOf seq K i hpos (List.mem_range.mp hi)]
    split
    · exact Or.inr rfl
    · exact Or.inl rfl
  · intro h4 h100
    subst h4
    rw [hmap 100 h100]
    decide
  · intro h4 h101
    subst h4
    rw [hmap 101 h101]
    decide

/-- Witness for C2: a sequence of 101 elements in four chunks. -/
theorem Part3_chunk_sizes_witness :
    4 ∈ sweepKs ∧ ((List.replicate 101 (7 : Int)).length : Int) ≤ INT_MAX ∧
    ∃ chunks, Part3_partition (List.replicate 101 (7 : Int)) 4 = some chunks ∧
      (∀ i, i < 4 → (chunks.get? i).map List.length
          = some ((List.replicate 101 (7 : Int)).length / 4
              + (if i < (List.replicate 101 (7 : Int)).length % 4 then 1 else 0))) ∧
      (∀ c ∈ chunks, c.length = (List.replicate 101 (7 : Int)).length / 4 ∨
          c.length = (List.replicate 101 (7 : Int)).length / 4 + 1) ∧
      (4 = 4 → (List.replicate 101 (7 : Int)).length = 100 →
          chunks.map List.length = [25, 25, 25, 25]) ∧
      (4 = 4 → (List.replicate 101 (7 : Int)).length = 101 →
          chunks.map List.length = [26, 25, 25, 25]) :=
  ⟨by decide, by decide,
    Part3_chunk_sizes 4 (by decide) (List.replicate 101 (7 : Int)) (by decide)⟩

/-- C2 as stated fails: on a sequence of 2^31 elements and K = 4 the last chunk end leaves
the range of `int`, so the chunks and their sizes are not produced. -/
theorem Part3_chunk_sizes_fails :
    4 ∈ sweepKs ∧
    ¬ ∃ chunks, Part3_partition (List.replicate 2147483648 (0 : Int)) 4 = some chunks ∧
      ∀ i, i < 4 → (chunks.get? i).map List.length
        = some ((List.replicate 2147483648 (0 : Int)).length / 4
            + (if i < (List.replicate 2147483648 (0 : Int)).length % 4 then 1 else 0)) := by
  refine ⟨by decide, ?_⟩
  rintro ⟨chunks, h, _⟩
  rw [Part3_partition_four_none _ (List.length_replicate _ _)] at h
  exact Option.noConfusion h

/-- C10: for every K of the sweep and every sequence whose length L fits in an `int`, at
iteration i of the partition loop the chunk starts at offset i*(L/K) + min(i, L % K), the
body computes an end with 0 <= start <= end <= L, so the slice taken is a valid sub-range,
and after the last iteration start equals L. -/
theorem Part3_offsets_in_bounds (K : Nat) (hK : K ∈ sweepKs) (seq : List Int)
    (hL : (seq.length : Int) ≤ INT_MAX) :
    (∀ i, i < K → ∃ s s', partitionIter seq K i = some s ∧
        partitionBody seq (narrowToInt (seq.length / K)) (narrowToInt (seq.length % K)) i s
          = some s' ∧
        s.start = ((i * (seq.length / K) + min i (seq.length % K) : Nat) : Int) ∧
        0 ≤ s.start ∧ s.start ≤ s'.start ∧ s'.start ≤ (seq.length : Int) ∧
        (vectorRange seq s.start s'.start).isSome = true) ∧
    (∃ s, partitionIter seq K K = some s ∧ s.start = (seq.length : Int)) := by
  have hpos := mem_sweepKs_pos K hK
  constructor
  · intro i hi
    have hmono : (chunkStart seq.length K i : Int) ≤ (chunkStart seq.length K (i + 1) : Int) :=
      Int.ofNat_le.mpr (chunkStart_mono seq.length K i)
    have hle : (chunkStart seq.length K (i + 1) : Int) ≤ (seq.length : Int) :=
      Int.ofNat_le.mpr (chunkStart_le seq.length K (i + 1) hpos hi)
    refine ⟨_, _, partitionIter_eq seq K hpos hL i (Nat.le_of_lt hi),
      partitionBody_chunkStart seq K i hpos hi hL _, rfl, Int.ofNat_nonneg _, hmono, hle, ?_⟩
    show (vectorRange seq (chunkStart seq.length K i : Int)
      (chunkStart seq.length K (i + 1) : Int)).isSome = true
    unfold vectorRange
    rw [if_pos ⟨Int.ofNat_nonneg _, hmono, hle⟩]
    rfl
  · refine ⟨_, partitionIter_eq seq K hpos hL K (Nat.le_refl K), ?_⟩
    show (chunkStart seq.length K K : Int) = (seq.length : Int)
    rw [chunkStart_full _ _ hpos]

/-- Witness for C10: three elements in two chunks. -/
theorem Part3_offsets_in_bounds_witness :
    2 ∈ sweepKs ∧ (([4, 5, 6] : List Int).length : Int) ≤ INT_MAX ∧
    ((∀ i, i < 2 → ∃ s s', partitionIter [4, 5, 6] 2 i = some s ∧
        partitionBody [4, 5, 6] (narrowToInt (([4, 5, 6] : List Int).length / 2))
          (narrowToInt (([4, 5, 6] : List Int).length % 2)) i s = some s' ∧
        s.start = ((i * (([4, 5, 6] : List Int).length / 2)
          + min i (([4, 5, 6] : List Int).length % 2) : Nat) : Int) ∧
        0 ≤ s.start ∧ s.start ≤ s'.start ∧ s'.start ≤ (([4, 5, 6] : List Int).length : Int) ∧
        (vectorRange [4, 5, 6] s.start s'.start).isSome = true) ∧
    (∃ s, partitionIter [4, 5, 6] 2 2 = some s ∧
        s.start = (([4, 5, 6] : List Int).length : Int))) :=
  ⟨by decide, by decide, Part3_offsets_in_bounds 2 (by decide) [4, 5, 6] (by decide)⟩

/-! ## RandomSeq -/

theorem wrapInt_natCast (n : Nat) (h : (n : Int) ≤ INT_MAX) : wrapInt (n : Int) = (n : Int) := by
  unfold wrapInt
  unfold INT_MAX at h
  omega

/-- The loop started at counter `i` runs `stop - i` more times when every counter value
below `stop` passes the guard and the value stored after the last increment fails it. -/
theorem RandomSeq_loop_run {E : Type} (size stop : Nat) (distribution : E → Nat × E)
    (hstop : stop ≤ 2147483648) (hsize : stop ≤ size)
    (hexit : ¬ toSizeT (wrapInt (stop : Int)) < size) (todo : Nat) :
    ∀ (fuel i : Nat) (e : E) (acc : List Int), i + todo = stop → todo < fuel →
      ∃ out e', RandomSeq_loop size distribution fuel (wrapInt (i : Int)) e acc
          = some (acc ++ out, e') ∧
        out.length = todo ∧ ∀ x ∈ out, ∃ e0, x = narrowToInt (distribution e0).1 := by
  induction todo with
  | zero =>
    intro fuel i e acc hi hfuel
    obtain ⟨f, rfl⟩ : ∃ f, fuel = f + 1 := ⟨fuel - 1, by omega⟩
    have his : i = stop := by omega
    subst his
    refine ⟨[], e, ?_, rfl, by simp⟩
    rw [RandomSeq_loop, if_neg hexit, List.append_nil]
  | succ todo ih =>
    intro fuel i e acc hi hfuel
    obtain ⟨f, rfl⟩ : ∃ f, fuel = f + 1 := ⟨fuel - 1, by omega⟩
    have hiMax : (i : Int) ≤ INT_MAX := by unfold INT_MAX; omega
    have hguard : toSizeT (i : Int) < size := by
      rw [toSizeT_natCast i hiMax]
      omega
    have hnext : (i : Int) + 1 = ((i + 1 : Nat) : Int) := by push_cast; rfl
    obtain ⟨out, e', hrun, hlen, hout⟩ := ih f (i + 1) (distribution e).2
      (acc ++ [narrowToInt (distribution e).1]) (by omega) (by omega)
    refine ⟨narrowToInt (distribution e).1 :: out, e', ?_, by simp [hlen], ?_⟩
    · rw [wrapInt_natCast i hiMax, RandomSeq_loop, if_pos hguard, hnext, hrun,
        List.append_assoc, List.singleton_append]
    · intro x hx
      rcases List.mem_cons.mp hx with hx | hx
      · exact ⟨e, hx⟩
      · exact hout x hx

theorem toSizeT_wrapInt_ge (size : Nat) (h : size ≤ 2147483648) :
    ¬ toSizeT (wrapInt (size : Int)) < size := by
  by_cases hmax : (size : Int) ≤ INT_MAX
  · rw [wrapInt_natCast size hmax, toSizeT_natCast size hmax]
    exact Nat.lt_irrefl size
  · have hs : size = 2147483648 := by unfold INT_MAX at hmax; omega
    subst hs
    decide

theorem wrapInt_zero : wrapInt ((0 : Nat) : Int) = 0 := by decide

theorem RandomSeq_spec {E : Type} (size : Nat) (distribution : E → Nat × E)
    (hsize : size ≤ 2147483648) (e : E) :
    ∃ seq e', RandomSeq size distribution e = some (seq, e') ∧ seq.length = size ∧
      ∀ x ∈ seq, ∃ e0, x = narrowToInt (distribution e0).1 := by
  obtain ⟨out, e', hrun, hlen, hout⟩ :=
    RandomSeq_loop_run size size distribution hsize (Nat.le_refl size)
      (toSizeT_wrapInt_ge size hsize) size (size + 1) 0 e [] (by omega) (by omega)
  rw [wrapInt_zero] at hrun
  exact ⟨out, e', by rw [RandomSeq]; exact hrun, hlen, hout⟩

theorem mainBody_spec {E : Type} (distribution : E → Nat × E) (s : MainState E) (v : Nat)
    (hv : s.starting_size = (v : Int)) (hmul : (v : Int) * 10 ≤ INT_MAX) :
    ∃ seq e', mainBody distribution s
        = some { sequences := s.sequences ++ [seq], starting_size := (v : Int) * 10,
                 mt_engine := e' } ∧ seq.length = v := by
  have hmul' := hmul
  unfold INT_MAX at hmul'
  have hsz : toSizeT s.starting_size = v := by
    rw [hv]
    exact toSizeT_natCast v (by unfold INT_MAX; omega)
  obtain ⟨seq, e', hrun, hlen, _⟩ :=
    RandomSeq_spec v distribution (by omega) s.mt_engine
  have hm : mulInt s.starting_size 10 = some ((v : Int) * 10) := by
    rw [hv]
    exact checkedInt_of_range _ (by unfold INT_MIN; omega) hmul
  refine ⟨seq, e', ?_, hlen⟩
  unfold mainBody
  rw [hsz, hrun, Option.some_bind, hm, Option.some_bind]

theorem mainIter_spec {E : Type} (distribution : E → Nat × E) (e : E) (n : Nat) (hn : n ≤ 5) :
    ∃ s, mainIter distribution e n = some s ∧ s.starting_size = ((100 * 10 ^ n : Nat) : Int) ∧
      s.sequences.map List.length = (List.range n).map fun i => 100 * 10 ^ i := by
  induction n with
  | zero => exact ⟨_, rfl, rfl, rfl⟩
  | succ n ih =>
    obtain ⟨s, hs, hsize, hseqs⟩ := ih (Nat.le_of_succ_le hn)
    have hpow : 10 ^ (n + 1) ≤ 10 ^ 5 := Nat.pow_le_pow_right (by decide) hn
    have hpow' : 10 ^ (n + 1) = 10 ^ n * 10 := Nat.pow_succ 10 n
    have hbound : ((100 * 10 ^ n : Nat) : Int) * 10 ≤ INT_MAX := by
      unfold INT_MAX
      have h5 : (10 : Nat) ^ 5 = 100000 := by decide
      rw [hpow', h5] at hpow
      generalize 10 ^ n = p at hpow ⊢
      omega
    obtain ⟨seq, e', hbody, hlen⟩ := mainBody_spec distribution s (100 * 10 ^ n) hsize hbound
    refine ⟨{ sequences := s.sequences ++ [seq], starting_size := ((100 * 10 ^ n : Nat) : Int) * 10,
              mt_engine := e' }, ?_, ?_, ?_⟩
    · rw [mainIter, hs, Option.some_bind, hbody]
    · show ((100 * 10 ^ n : Nat) : Int) * 10 = ((100 * 10 ^ (n + 1) : Nat) : Int)
      rw [hpow']
      push_cast
      ring
    · show (s.sequences ++ [seq]).map List.length = _
      rw [List.map_append, hseqs, List.range_succ, List.map_append]
      simp [hlen]

/-- C6: main builds exactly five sequences; at iteration i (i = 0..4) the size requested
from RandomSeq is 100 * 10^i, so the lengths are 100, 1000, 10000, 100000 and 1000000 in
that order, and the variable `starting_size` stays within the 32-bit `int` range after
every iteration (no multiplication by 10 overflows). -/
theorem main_sequence_sizes {E : Type} (distribution : E → Nat × E) (mt_engine : E) :
    (∃ seqs, main_sequences distribution mt_engine = some seqs ∧ seqs.length = 5 ∧
      seqs.map List.length = [100, 1000, 10000, 100000, 1000000]) ∧
    (∀ i, i < 5 → ∃ s, mainIter distribution mt_engine i = some s ∧
      toSizeT s.starting_size = 100 * 10 ^ i) ∧
    (∀ n, n ≤ 5 → ∃ s, mainIter distribution mt_engine n = some s ∧
      INT_MIN ≤ s.starting_size ∧ s.starting_size ≤ INT_MAX) := by
  refine ⟨?_, ?_, ?_⟩
  · obtain ⟨s, hs, _, hseqs⟩ := mainIter_spec distribution mt_engine 5 (Nat.le_refl 5)
    have hlens : s.sequences.map List.length = [100, 1000, 10000, 100000, 1000000] := by
      rw [hseqs]
      decide
    refine ⟨s.sequences, ?_, ?_, hlens⟩
    · unfold main_sequences
      rw [hs]
      rfl
    · have h := congrArg List.length hlens
      rw [List.length_map] at h
      exact h
  · intro i hi
    obtain ⟨s, hs, hsize, _⟩ := mainIter_spec distribution mt_engine i (Nat.le_of_lt hi)
    refine ⟨s, hs, ?_⟩
    have hpow : 10 ^ i ≤ 10 ^ 5 := Nat.pow_le_pow_right (by decide) (Nat.le_of_lt hi)
    have h5 : (10 : Nat) ^ 5 = 100000 := by decide
    rw [h5] at hpow
    rw [hsize]
    apply toSizeT_natCast
    generalize 10 ^ i = p at hpow ⊢
    unfold INT_MAX
    omega
  · intro n hn
    obtain ⟨s, hs, hsize, _⟩ := mainIter_spec distribution mt_engine n hn
    refine ⟨s, hs, ?_⟩
    have hpow : 10 ^ n ≤ 10 ^ 5 := Nat.pow_le_pow_right (by decide) hn
    have h5 : (10 : Nat) ^ 5 = 100000 := by decide
    rw [h5] at hpow
    rw [hsize]
    generalize 10 ^ n = p at hpow ⊢
    unfold INT_MIN INT_MAX
    omega

/-! ## Predicate -/

theorem Predicate_int_eq (x v : Int) (h : Predicate_int x = some v) : v = x * x + x := by
  unfold Predicate_int mulInt addInt checkedInt at h
  split at h
  · rw [Option.some_bind] at h
    split at h
    · exact (Option.some.inj h).symm
    · exact Option.noConfusion h
  · exact Option.noConfusion h

/-- C7: for every integer x in [0, 100], the product x * x and the sum x * x + x computed
by Predicate stay within the signed 32-bit range: the `int` subexpression is evaluated
without overflow and has the value x*x + x. -/
theorem Predicate_int_no_overflow (x : Int) (h0 : 0 ≤ x) (h100 : x ≤ 100) :
    mulInt x x = some (x * x) ∧ Predicate_int x = some (x * x + x) ∧
      INT_MIN ≤ x * x + x ∧ x * x + x ≤ INT_MAX := by
  have hsq0 : 0 ≤ x * x := mul_nonneg h0 h0
  have hsq : x * x ≤ 100 * 100 := mul_le_mul h100 h100 h0 (by decide)
  have hm : mulInt x x = some (x * x) :=
    checkedInt_of_range _ (by unfold INT_MIN; omega) (by unfold INT_MAX; omega)
  have ha : addInt (x * x) x = some (x * x + x) :=
    checkedInt_of_range _ (by unfold INT_MIN; omega) (by unfold INT_MAX; omega)
  refine ⟨hm, ?_, by unfold INT_MIN; omega, by unfold INT_MAX; omega⟩
  unfold Predicate_int
  rw [hm, Option.some_bind, ha]

/-- Witness for C7: the largest generated value. -/
theorem Predicate_int_no_overflow_witness :
    (0 : Int) ≤ 100 ∧ (100 : Int) ≤ 100 ∧
    (mulInt 100 100 = some (100 * 100) ∧ Predicate_int 100 = some (100 * 100 + 100) ∧
      INT_MIN ≤ (100 : Int) * 100 + 100 ∧ (100 : Int) * 100 + 100 ≤ INT_MAX) :=
  ⟨by decide, by decide, Predicate_int_no_overflow 100 (by decide) (by decide)⟩

/-- C8: with the real cosine, for every x whose subexpression x*x + x does not overflow,
Predicate(x) is false exactly when x = 0 or x = -1 and true otherwise; on the range
[0, 100] of the generator it is false only for x = 0. -/
theorem Predicate_false_iff (x v : Int) (h : Predicate_int x = some v) :
    ∃ p : Prop, Predicate x = some p ∧ (¬ p ↔ (x = 0 ∨ x = -1)) ∧
      (p ↔ ¬ (x = 0 ∨ x = -1)) ∧ (0 ≤ x → x ≤ 100 → (¬ p ↔ x = 0)) := by
  have hv := Predicate_int_eq x v h
  have key : ((v : ℝ) - Real.cos (x : ℝ) > 0) ↔ ¬ (x = 0 ∨ x = -1) := by
    constructor
    · rintro hp (rfl | rfl)
      · have : v = 0 := by rw [hv]; rfl
        rw [this] at hp
        simp at hp
        linarith [Real.cos_zero]
      · have : v = 0 := by rw [hv]; rfl
        rw [this] at hp
        simp at hp
        linarith [Real.cos_one_pos]
    · intro hx
      have hx0 : x ≠ 0 := fun h0 => hx (Or.inl h0)
      have hx1 : x ≠ -1 := fun h1 => hx (Or.inr h1)
      have hv2 : 2 ≤ v := by
        rw [hv]
        rcases lt_or_gt_of_ne hx0 with hneg | hpos
        · have : x ≤ -2 := by omega
          nlinarith
        · nlinarith
      have hvr : (2 : ℝ) ≤ (v : ℝ) := by exact_mod_cast hv2
      have hc := Real.cos_le_one (x : ℝ)
      linarith
  refine ⟨(v : ℝ) - Real.cos (x : ℝ) > 0, ?_, ?_, key, ?_⟩
  · unfold Predicate
    rw [h]
    rfl
  · rw [key, not_not]
  · intro h0 _
    rw [key, not_not]
    constructor
    · rintro (h | h)
      · exact h
      · omega
    · exact Or.inl

/-- Witness for C8: x = 3, where x*x + x = 12. -/
theorem Predicate_false_iff_witness :
    Predicate_int 3 = some 12 ∧
    ∃ p : Prop, Predicate 3 = some p ∧ (¬ p ↔ ((3 : Int) = 0 ∨ (3 : Int) = -1)) ∧
      (p ↔ ¬ ((3 : Int) = 0 ∨ (3 : Int) = -1)) ∧
      ((0 : Int) ≤ 3 → (3 : Int) ≤ 100 → (¬ p ↔ (3 : Int) = 0)) :=
  ⟨by decide, Predicate_false_iff 3 12 (by decide)⟩

/-! ## The completion latch -/

theorem partitionBody_length (seq : List Int) (cs rem : Int) (i : Nat) (s s' : PartitionState)
    (h : partitionBody seq cs rem i s = some s') : s'.chunks.length = s.chunks.length := by
  unfold partitionBody at h
  obtain ⟨e1, _, h⟩ := Option.bind_eq_some.mp h
  obtain ⟨e2, _, h⟩ := Option.bind_eq_some.mp h
  obtain ⟨c, _, h⟩ := Option.bind_eq_some.mp h
  rw [← Option.some.inj h]
  exact List.length_set _ _ _

theorem partitionIter_length (seq : List Int) (K n : Nat) (s : PartitionState)
    (h : partitionIter seq K n = some s) : s.chunks.length = K := by
  induction n generalizing s with
  | zero =>
    rw [partitionIter] at h
    rw [← Option.some.inj h]
    exact List.length_replicate _ _
  | succ n ih =>
    rw [partitionIter] at h
    obtain ⟨s0, h0, hb⟩ := Option.bind_eq_some.mp h
    rw [partitionBody_length _ _ _ _ _ _ hb]
    exact ih s0 h0

theorem Part3_partition_length (seq : List Int) (K : Nat) (chunks : List (List Int))
    (h : Part3_partition seq K = some chunks) : chunks.length = K := by
  unfold Part3_partition at h
  obtain ⟨s, hs, hc⟩ := Option.map_eq_some'.mp h
  rw [← hc]
  exact partitionIter_length seq K K s hs

theorem count_set_of_get? (l : List Worker) (w : Nat) (a b c : Worker)
    (h : l.get? w = some a) :
    ((l.set w b).count c : Int)
      = (l.count c : Int) - (if a = c then 1 else 0) + (if b = c then 1 else 0) := by
  induction l generalizing w with
  | nil => simp at h
  | cons x xs ih =>
    cases w with
    | zero =>
      simp only [List.get?_cons_zero, Option.some.injEq] at h
      subst h
      simp only [List.set_cons_zero, List.count_cons, beq_iff_eq]
      split <;> split <;> push_cast <;> omega
    | succ w =>
      simp only [List.get?_cons_succ] at h
      have := ih w h
      simp only [List.set_cons_succ, List.count_cons, beq_iff_eq]
      push_cast
      omega

/-- The invariant of a trial with `K` workers: the latch counter plus the number of workers
that have counted down is `K`, and there are `K` workers. -/
theorem trialStep_invariant (K : Nat) (s s' : TrialState) (ev : TrialEvent)
    (hinv : s.done + (signalledCount s : Int) = (K : Int) ∧ s.workers.length = K)
    (h : trialStep s ev = some s') :
    s'.done + (signalledCount s' : Int) = (K : Int) ∧ s'.workers.length = K := by
  obtain ⟨hd, hl⟩ := hinv
  unfold signalledCount at hd ⊢
  cases ev with
  | launch w =>
    simp only [trialStep] at h
    split at h
    · rename_i hw
      rw [← Option.some.inj h]
      have hc := count_set_of_get? s.workers w Worker.pending Worker.running Worker.signalled hw
      simp only [List.length_set]
      rw [hc]
      simp only [reduceCtorEq, if_false]
      exact ⟨by omega, hl⟩
    · exact Option.noConfusion h
  | finish w =>
    simp only [trialStep] at h
    split at h
    · rename_i hw
      rw [← Option.some.inj h]
      have hc := count_set_of_get? s.workers w Worker.running Worker.signalled Worker.signalled hw
      simp only [List.length_set]
      rw [hc]
      simp only [reduceCtorEq, if_false, if_true]
      exact ⟨by omega, hl⟩
    · exact Option.noConfusion h

theorem runTrial_invariant (K : Nat) (events : List TrialEvent) (s s' : TrialState)
    (hinv : s.done + (signalledCount s : Int) = (K : Int) ∧ s.workers.length = K)
    (h : runTrial s events = some s') :
    s'.done + (signalledCount s' : Int) = (K : Int) ∧ s'.workers.length = K := by
  induction events generalizing s with
  | nil =>
    rw [runTrial] at h
    rw [← Option.some.inj h]
    exact hinv
  | cons ev evs ih =>
    rw [runTrial] at h
    obtain ⟨s1, h1, hrest⟩ := Option.bind_eq_some.mp h
    exact ih s1 (trialStep_invariant K s s1 ev hinv h1) hrest

theorem trialInit_invariant (K : Nat) (chunks : List (List Int)) (hlen : chunks.length = K) :
    (trialInit K chunks).done + (signalledCount (trialInit K chunks) : Int) = (K : Int) ∧
      (trialInit K chunks).workers.length = K := by
  have hcount : ∀ l : List (List Int),
      (l.map fun _ => Worker.pending).count Worker.signalled = 0 := by
    intro l
    induction l with
    | nil => rfl
    | cons x xs ih => simpa [List.count_cons] using ih
  unfold signalledCount trialInit
  simp only [hcount, List.length_map]
  exact ⟨by simp, hlen⟩

/-- C5: in a trial whose chunks come from the partition step for K, the latch starts at K
and there are K workers; in every state reached by any interleaving of thread creations and
worker completions the counter equals K minus the number of workers that have counted
down, a worker that has counted down cannot count down again, and `done.wait()` is released
if and only if all K workers have counted down: not with fewer than K, and always with K. -/
theorem latch_released_iff_all_signalled (K : Nat) (seq : List Int)
    (chunks : List (List Int)) (hc : Part3_partition seq K = some chunks)
    (events : List TrialEvent) (s : TrialState)
    (hrun : runTrial (trialInit K chunks) events = some s) :
    (trialInit K chunks).done = (K : Int) ∧ (trialInit K chunks).workers.length = K ∧
    s.workers.length = K ∧ s.done = (K : Int) - (signalledCount s : Int) ∧
    (waitReleased s = true ↔ signalledCount s = K) ∧
    (signalledCount s < K → waitReleased s = false) ∧
    (signalledCount s = K → waitReleased s = true) ∧
    (∀ w, s.workers.get? w = some Worker.signalled →
      trialStep s (TrialEvent.finish w) = none) := by
  have hlen := Part3_partition_length seq K chunks hc
  have hinit := trialInit_invariant K chunks hlen
  obtain ⟨hd, hl⟩ := runTrial_invariant K events _ s hinit hrun
  have hiff : waitReleased s = true ↔ signalledCount s = K := by
    unfold waitReleased
    rw [beq_iff_eq]
    omega
  refine ⟨rfl, hinit.2, hl, by omega, hiff, ?_, hiff.mpr, ?_⟩
  · intro hlt
    cases hw : waitReleased s with
    | false => rfl
    | true => exact absurd (hiff.mp hw) (Nat.ne_of_lt hlt)
  · intro w hw
    simp only [trialStep]
    rw [if_neg]
    rw [hw]
    intro h
    exact Worker.noConfusion (Option.some.inj h)

/-- Witness for C5: two workers, the second one finishing first. -/
theorem latch_released_iff_all_signalled_witness :
    Part3_partition [1, 2, 3] 2 = some [[1, 2], [3]] ∧
    runTrial (trialInit 2 [[1, 2], [3]])
      [TrialEvent.launch 0, TrialEvent.launch 1, TrialEvent.finish 1, TrialEvent.finish 0]
      = some { done := 0, workers := [Worker.signalled, Worker.signalled] } ∧
    ((trialInit 2 [[1, 2], [3]]).done = ((2 : Nat) : Int) ∧
      (trialInit 2 [[1, 2], [3]]).workers.length = 2 ∧
      ({ done := 0, workers := [Worker.signalled, Worker.signalled] } : TrialState).workers.length
        = 2 ∧
      ({ done := 0, workers := [Worker.signalled, Worker.signalled] } : TrialState).done
        = ((2 : Nat) : Int) - (signalledCount
            { done := 0, workers := [Worker.signalled, Worker.signalled] } : Int) ∧
      (waitReleased { done := 0, workers := [Worker.signalled, Worker.signalled] } = true ↔
        signalledCount { done := 0, workers := [Worker.signalled, Worker.signalled] } = 2) ∧
      (signalledCount { done := 0, workers := [Worker.signalled, Worker.signalled] } < 2 →
        waitReleased { done := 0, workers := [Worker.signalled, Worker.signalled] } = false) ∧
      (signalledCount { done := 0, workers := [Worker.signalled, Worker.signalled] } = 2 →
        waitReleased { done := 0, workers := [Worker.signalled, Worker.signalled] } = true) ∧
      (∀ w, ({ done := 0, workers := [Worker.signalled, Worker.signalled] } :
            TrialState).workers.get? w = some Worker.signalled →
        trialStep { done := 0, workers := [Worker.signalled, Worker.signalled] }
          (TrialEvent.finish w) = none)) :=
  ⟨by decide, by decide,
    latch_released_iff_all_signalled 2 [1, 2, 3] [[1, 2], [3]] (by decide)
      [TrialEvent.launch 0, TrialEvent.launch 1, TrialEvent.finish 1, TrialEvent.finish 0]
      { done := 0, workers := [Worker.signalled, Worker.signalled] } (by decide)⟩

/-! ## Comparison of doubles -/

theorem Double.lt_irrefl (a : Double) : Double.lt a a = false := by
  cases a <;> simp [Double.lt]

theorem Double.lt_trans (a b c : Double) (h1 : Double.lt a b = true)
    (h2 : Double.lt b c = true) : Double.lt a c = true := by
  cases a <;> cases b <;> cases c <;> simp [Double.lt] at h1 h2 ⊢
  omega

theorem Double.le_of_not_lt (a b : Double) (ha : a ≠ Double.nan) (hb : b ≠ Double.nan)
    (h : Double.lt b a = false) : Double.le a b = true := by
  cases a <;> cases b <;> simp [Double.lt, Double.le] at ha hb h ⊢
  omega

theorem Double.ne_nan_of_lt (a b : Double) (h : Double.lt a b = true) : a ≠ Double.nan := by
  intro ha
  rw [ha] at h
  cases b <;> simp [Double.lt] at h

/-! ## The sweep over K -/

theorem sweepStep_of_lt (elapsed : Nat → Nat → Double) (nseq : Nat) (s : SweepState) (K : Nat)
    (h : Double.lt (avg_time elapsed nseq K) s.best_avg_time = true) :
    sweepStep elapsed nseq s K
      = { best_K := K, best_avg_time := avg_time elapsed nseq K } := by
  unfold sweepStep
  exact if_pos h

theorem sweepStep_of_not (elapsed : Nat → Nat → Double) (nseq : Nat) (s : SweepState)
    (K : Nat) (h : Double.lt (avg_time elapsed nseq K) s.best_avg_time = false) :
    sweepStep elapsed nseq s K = s := by
  unfold sweepStep
  apply if_neg
  rw [h]
  exact Bool.noConfusion

theorem sweep_unchanged (elapsed : Nat → Nat → Double) (nseq : Nat) (Ks : List Nat)
    (s : SweepState)
    (h : ∀ K ∈ Ks, Double.lt (avg_time elapsed nseq K) s.best_avg_time = false) :
    Ks.foldl (sweepStep elapsed nseq) s = s := by
  induction Ks with
  | nil => rfl
  | cons K Ks ih =>
    rw [List.foldl_cons, sweepStep_of_not elapsed nseq s K (h K (List.mem_cons_self _ _))]
    exact ih fun K' hK' => h K' (List.mem_cons_of_mem _ hK')

theorem sweepStep_le (elapsed : Nat → Nat → Double) (nseq : Nat) (s : SweepState) (K : Nat) :
    ((sweepStep elapsed nseq s K).best_avg_time = s.best_avg_time ∨
      Double.lt (sweepStep elapsed nseq s K).best_avg_time s.best_avg_time = true) ∧
    Double.lt (avg_time elapsed nseq K) (sweepStep elapsed nseq s K).best_avg_time = false := by
  cases hlt : Double.lt (avg_time elapsed nseq K) s.best_avg_time with
  | false =>
    rw [sweepStep_of_not elapsed nseq s K hlt]
    exact ⟨Or.inl rfl, hlt⟩
  | true =>
    rw [sweepStep_of_lt elapsed nseq s K hlt]
    exact ⟨Or.inr hlt, Double.lt_irrefl _⟩

theorem sweep_le (elapsed : Nat → Nat → Double) (nseq : Nat) (Ks : List Nat) (s : SweepState) :
    ((Ks.foldl (sweepStep elapsed nseq) s).best_avg_time = s.best_avg_time ∨
      Double.lt (Ks.foldl (sweepStep elapsed nseq) s).best_avg_time s.best_avg_time = true) ∧
    ∀ K ∈ Ks,
      Double.lt (avg_time elapsed nseq K) (Ks.foldl (sweepStep elapsed nseq) s).best_avg_time
        = false := by
  induction Ks generalizing s with
  | nil => exact ⟨Or.inl rfl, fun K hK => absurd hK (List.not_mem_nil K)⟩
  | cons K Ks ih =>
    rw [List.foldl_cons]
    obtain ⟨h1, h2⟩ := ih (sweepStep elapsed nseq s K)
    obtain ⟨g1, g2⟩ := sweepStep_le elapsed nseq s K
    constructor
    · rcases h1 with h1 | h1
      · rw [h1]
        exact g1
      · rcases g1 with g1 | g1
        · rw [← g1]
          exact Or.inr h1
        · exact Or.inr (Double.lt_trans _ _ _ h1 g1)
    · intro K' hK'
      rcases List.mem_cons.mp hK' with rfl | hmem
      · rcases h1 with h1 | h1
        · rw [h1]
          exact g2
        · cases hk : Double.lt (avg_time elapsed nseq K')
              (List.foldl (sweepStep elapsed nseq) (sweepStep elapsed nseq s K') Ks).best_avg_time with
          | false => rfl
          | true =>
            have := Double.lt_trans _ _ _ hk h1
            rw [g2] at this
            exact Bool.noConfusion this
      · exact h2 K' hmem

theorem sweep_improved (elapsed : Nat → Nat → Double) (nseq : Nat) (Ks : List Nat)
    (s : SweepState)
    (h : ∃ K ∈ Ks, Double.lt (avg_time elapsed nseq K) s.best_avg_time = true) :
    (Ks.foldl (sweepStep elapsed nseq) s).best_K ∈ Ks ∧
    avg_time elapsed nseq (Ks.foldl (sweepStep elapsed nseq) s).best_K
      = (Ks.foldl (sweepStep elapsed nseq) s).best_avg_time ∧
    Double.lt (Ks.foldl (sweepStep elapsed nseq) s).best_avg_time s.best_avg_time = true := by
  induction Ks generalizing s with
  | nil =>
    obtain ⟨K, hK, _⟩ := h
    exact absurd hK (List.not_mem_nil K)
  | cons K Ks ih =>
    rw [List.foldl_cons]
    cases hlt : Double.lt (avg_time elapsed nseq K) s.best_avg_time with
    | true =>
      rw [sweepStep_of_lt elapsed nseq s K hlt]
      by_cases hex : ∃ K' ∈ Ks,
          Double.lt (avg_time elapsed nseq K') (avg_time elapsed nseq K) = true
      · obtain ⟨m1, m2, m3⟩ :=
          ih { best_K := K, best_avg_time := avg_time elapsed nseq K } hex
        exact ⟨List.mem_cons_of_mem _ m1, m2, Double.lt_trans _ _ _ m3 hlt⟩
      · have hall : ∀ K' ∈ Ks, Double.lt (avg_time elapsed nseq K')
            ({ best_K := K, best_avg_time := avg_time elapsed nseq K } :
              SweepState).best_avg_time = false := by
          intro K' hK'
          cases hb : Double.lt (avg_time elapsed nseq K') (avg_time elapsed nseq K) with
          | false => rfl
          | true => exact absurd ⟨K', hK', hb⟩ hex
        rw [sweep_unchanged elapsed nseq Ks _ hall]
        exact ⟨List.mem_cons_self _ _, rfl, hlt⟩
    | false =>
      rw [sweepStep_of_not elapsed nseq s K hlt]
      have hex : ∃ K' ∈ Ks,
          Double.lt (avg_time elapsed nseq K') s.best_avg_time = true := by
        obtain ⟨K', hK', hb⟩ := h
        rcases List.mem_cons.mp hK' with rfl | hmem
        · rw [hlt] at hb
          exact Bool.noConfusion hb
        · exact ⟨K', hmem, hb⟩
      obtain ⟨m1, m2, m3⟩ := ih s hex
      exact ⟨List.mem_cons_of_mem _ m1, m2, m3⟩

theorem sweep_first (elapsed : Nat → Nat → Double) (nseq : Nat) (Ks : List Nat)
    (hsorted : Ks.Pairwise (fun a b => a < b)) (s : SweepState)
    (h : ∃ K ∈ Ks, Double.lt (avg_time elapsed nseq K) s.best_avg_time = true) :
    ∀ K ∈ Ks, avg_time elapsed nseq K
        = (Ks.foldl (sweepStep elapsed nseq) s).best_avg_time →
      (Ks.foldl (sweepStep elapsed nseq) s).best_K ≤ K := by
  induction Ks generalizing s with
  | nil =>
    obtain ⟨K, hK, _⟩ := h
    exact absurd hK (List.not_mem_nil K)
  | cons K Ks ih =>
    obtain ⟨hhead, htail⟩ := List.pairwise_cons.mp hsorted
    rw [List.foldl_cons]
    cases hlt : Double.lt (avg_time elapsed nseq K) s.best_avg_time with
    | true =>
      rw [sweepStep_of_lt elapsed nseq s K hlt]
      by_cases hex : ∃ K' ∈ Ks,
          Double.lt (avg_time elapsed nseq K') (avg_time elapsed nseq K) = true
      · obtain ⟨_, _, m3⟩ := sweep_improved elapsed nseq Ks
          { best_K := K, best_avg_time := avg_time elapsed nseq K } hex
        intro K' hK' hav
        rcases List.mem_cons.mp hK' with rfl | hmem
        · rw [← hav, Double.lt_irrefl] at m3
          exact Bool.noConfusion m3
        · exact ih htail _ hex K' hmem hav
      · have hall : ∀ K' ∈ Ks, Double.lt (avg_time elapsed nseq K')
            ({ best_K := K, best_avg_time := avg_time elapsed nseq K } :
              SweepState).best_avg_time = false := by
          intro K' hK'
          cases hb : Double.lt (avg_time elapsed nseq K') (avg_time elapsed nseq K) with
          | false => rfl
          | true => exact absurd ⟨K', hK', hb⟩ hex
        rw [sweep_unchanged elapsed nseq Ks _ hall]
        intro K' hK' _
        rcases List.mem_cons.mp hK' with rfl | hmem
        · exact Nat.le_refl _
        · exact Nat.le_of_lt (hhead K' hmem)
    | false =>
      rw [sweepStep_of_not elapsed nseq s K hlt]
      have hex : ∃ K' ∈ Ks,
          Double.lt (avg_time elapsed nseq K') s.best_avg_time = true := by
        obtain ⟨K', hK', hb⟩ := h
        rcases List.mem_cons.mp hK' with rfl | hmem
        · rw [hlt] at hb
          exact Bool.noConfusion hb
        · exact ⟨K', hmem, hb⟩
      obtain ⟨_, _, m3⟩ := sweep_improved elapsed nseq Ks s hex
      intro K' hK' hav
      rcases List.mem_cons.mp hK' with rfl | hmem
      · rw [← hav, hlt] at m3
        exact Bool.noConfusion m3
      · exact ih htail s hex K' hmem hav

theorem sweepKs_sorted : sweepKs.Pairwise (fun a b => a < b) := by
  unfold sweepKs
  decide

/-! ## Rounding never produces a value that is not a number -/

theorem Double.ofRatio_ne_nan (p : Int) (q : Nat) : Double.ofRatio p q ≠ Double.nan := by
  unfold Double.ofRatio
  split
  · exact fun h => Double.noConfusion h
  · split <;> exact fun h => Double.noConfusion h

theorem Double.add_fin_ne_nan (t : Double) (m : Int) (ht : t ≠ Double.nan) :
    Double.add t (Double.fin m) ≠ Double.nan := by
  cases t with
  | nan => exact absurd rfl ht
  | negInf => exact fun h => Double.noConfusion h
  | posInf => exact fun h => Double.noConfusion h
  | fin a => exact Double.ofRatio_ne_nan _ _

theorem foldl_add_ne_nan (f : Nat → Double) (l : List Nat)
    (hf : ∀ j ∈ l, Double.isFinite (f j) = true) (t : Double) (ht : t ≠ Double.nan) :
    l.foldl (fun t j => Double.add t (f j)) t ≠ Double.nan := by
  induction l generalizing t with
  | nil => exact ht
  | cons j l ih =>
    rw [List.foldl_cons]
    apply ih (fun j' hj' => hf j' (List.mem_cons_of_mem _ hj'))
    have hj := hf j (List.mem_cons_self _ _)
    cases hfj : f j with
    | fin m => exact Double.add_fin_ne_nan t m ht
    | nan => rw [hfj] at hj; exact Bool.noConfusion hj
    | negInf => rw [hfj] at hj; exact Bool.noConfusion hj
    | posInf => rw [hfj] at hj; exact Bool.noConfusion hj

theorem total_time_ne_nan (elapsed : Nat → Nat → Double) (nseq K : Nat)
    (hnum : ∀ j, j < nseq → Double.isFinite (elapsed K j) = true) :
    total_time elapsed nseq K ≠ Double.nan := by
  unfold total_time
  exact foldl_add_ne_nan (elapsed K) _ (fun j hj => hnum j (List.mem_range.mp hj)) _
    (fun h => Double.noConfusion h)

theorem strides_invariant (v : Nat) (l : List Nat) :
    ∀ acc, 2 ^ 53 ≤ v / 2 ^ acc →
      2 ^ 53 ≤ v / 2 ^ l.foldl
        (fun acc k => if 2 ^ 53 ≤ v / 2 ^ (acc + k) then acc + k else acc) acc := by
  induction l with
  | nil => exact fun acc h => h
  | cons k l ih =>
    intro acc h
    rw [List.foldl_cons]
    apply ih
    split
    · rename_i hk
      exact hk
    · exact h

theorem excessBits_pow_le (v : Nat) (hv : 0 < v) : 2 ^ excessBits v ≤ v := by
  unfold excessBits
  split
  · exact hv
  · rename_i hge
    have h0 : 2 ^ 53 ≤ v / 2 ^ 0 := by
      rw [Nat.pow_zero, Nat.div_one]
      exact Nat.le_of_not_lt hge
    have hinv := strides_invariant v bitStrides 0 h0
    generalize bitStrides.foldl
      (fun acc k => if 2 ^ 53 ≤ v / 2 ^ (acc + k) then acc + k else acc) 0 = t at hinv
    have hmul : 2 ^ 53 * 2 ^ t ≤ v := (Nat.le_div_iff_mul_le (Nat.two_pow_pos t)).mp hinv
    have h53 : (2 : Nat) ≤ 2 ^ 53 := by decide
    calc 2 ^ (t + 1) = 2 * 2 ^ t := pow_succ' 2 t
      _ ≤ 2 ^ 53 * 2 ^ t := Nat.mul_le_mul_right _ h53
      _ ≤ v := hmul

theorem roundHalfEven_ge (p q : Nat) : p / q ≤ roundHalfEven p q := by
  unfold roundHalfEven
  split
  · exact Nat.le_refl _
  · split
    · exact Nat.le_succ _
    · split
      · exact Nat.le_refl _
      · exact Nat.le_succ _

theorem roundHalfEven_le (p q : Nat) : roundHalfEven p q ≤ p / q + 1 := by
  unfold roundHalfEven
  split
  · exact Nat.le_succ _
  · split
    · exact Nat.le_refl _
    · split
      · exact Nat.le_succ _
      · exact Nat.le_refl _

theorem roundMagnitude_bounds (p : Nat) (hp : 0 < p) :
    0 < roundMagnitude p 1 ∧ roundMagnitude p 1 ≤ 2 * p := by
  have hs : 2 ^ excessBits (p / 1) ≤ p := by
    rw [Nat.div_one]
    exact excessBits_pow_le p hp
  have hpos : 0 < 2 ^ excessBits (p / 1) := Nat.two_pow_pos _
  have hq : 1 ≤ p / 2 ^ excessBits (p / 1) := Nat.div_pos hs hpos
  unfold roundMagnitude
  rw [Nat.one_mul]
  constructor
  · exact Nat.mul_pos (Nat.lt_of_lt_of_le hq (roundHalfEven_ge _ _)) hpos
  · calc roundHalfEven p (2 ^ excessBits (p / 1)) * 2 ^ excessBits (p / 1)
        ≤ (p / 2 ^ excessBits (p / 1) + 1) * 2 ^ excessBits (p / 1) :=
          Nat.mul_le_mul_right _ (roundHalfEven_le _ _)
      _ = p / 2 ^ excessBits (p / 1) * 2 ^ excessBits (p / 1) + 2 ^ excessBits (p / 1) := by
          rw [Nat.add_mul, Nat.one_mul]
      _ ≤ p + p := Nat.add_le_add (Nat.div_mul_le_self _ _) hs
      _ = 2 * p := (Nat.two_mul p).symm

theorem scaled_lt_pow (a b c n : Nat) (h : a + b + 1 ≤ c) (hn : n < 2 ^ a) :
    n * 2 ^ b < 2 ^ c ∧ 2 * (n * 2 ^ b) < 2 ^ c := by
  have h1 : n * 2 ^ b < 2 ^ a * 2 ^ b := Nat.mul_lt_mul_of_pos_right hn (Nat.two_pow_pos b)
  have h2 : 2 ^ a * 2 ^ b = 2 ^ (a + b) := (Nat.pow_add 2 a b).symm
  have h3 : 2 * 2 ^ (a + b) = 2 ^ (a + b + 1) := (pow_succ' 2 (a + b)).symm
  have h4 : 2 ^ (a + b + 1) ≤ 2 ^ c := Nat.pow_le_pow_right (by decide) h
  rw [h2] at h1
  generalize n * 2 ^ b = P at h1 ⊢
  generalize 2 ^ (a + b) = Q at h1 h3
  generalize 2 ^ (a + b + 1) = R at h3 h4
  generalize 2 ^ c = S at h4 ⊢
  omega

theorem scaled_pos (b n : Nat) (hn : 0 < n) : 0 < n * 2 ^ b :=
  Nat.mul_pos hn (Nat.two_pow_pos b)

theorem Double.ofRatio_natCast (P : Nat) (hP : 0 < P) (h1 : P < 2 ^ 2098)
    (h2 : 2 * P < 2 ^ 2098) :
    ∃ d, Double.ofRatio (P : Int) 1 = Double.fin d ∧ d ≠ 0 := by
  obtain ⟨hpos, hle⟩ := roundMagnitude_bounds P hP
  have hlt : roundMagnitude P 1 < 2 ^ 2098 := Nat.lt_of_le_of_lt hle h2
  refine ⟨((roundMagnitude P 1 : Nat) : Int), ?_, ?_⟩
  · unfold Double.ofRatio
    rw [Int.natAbs_ofNat, Nat.div_one, if_pos ⟨h1, hlt⟩, if_neg]
    exact Int.not_lt.mpr (Int.ofNat_nonneg _)
  · exact Int.ofNat_ne_zero.mpr (Nat.ne_of_gt hpos)

theorem Double.ofNat_eq_fin (n : Nat) (h0 : 0 < n) (h64 : n < 2 ^ 64) :
    ∃ d, Double.ofNat n = Double.fin d ∧ d ≠ 0 := by
  obtain ⟨h1, h2⟩ := scaled_lt_pow 64 1074 2098 n (by decide) h64
  exact Double.ofRatio_natCast (n * 2 ^ 1074) (scaled_pos 1074 n h0) h1 h2

theorem Double.divSize_ne_nan (t : Double) (n : Nat) (ht : t ≠ Double.nan) (h0 : 0 < n)
    (h64 : n < 2 ^ 64) : Double.divSize t n ≠ Double.nan := by
  obtain ⟨d, hd, hd0⟩ := Double.ofNat_eq_fin n h0 h64
  unfold Double.divSize
  rw [hd]
  cases t with
  | nan => exact absurd rfl ht
  | negInf => exact fun h => Double.noConfusion h
  | posInf => exact fun h => Double.noConfusion h
  | fin x =>
    show (if d = 0 then _ else Double.ofRatio (x * ((2 ^ 1074 : Nat) : Int)) d.natAbs) ≠ _
    rw [if_neg hd0]
    exact Double.ofRatio_ne_nan _ _

theorem avg_time_ne_nan (elapsed : Nat → Nat → Double) (nseq K : Nat)
    (hnum : ∀ j, j < nseq → Double.isFinite (elapsed K j) = true) (h0 : 0 < nseq)
    (h64 : nseq < 2 ^ 64) : avg_time elapsed nseq K ≠ Double.nan := by
  unfold avg_time
  exact Double.divSize_ne_nan _ _ (total_time_ne_nan elapsed nseq K hnum) h0 h64

/-! ## Evaluation on sample timings -/

set_option exponentiation.threshold 4096 in
theorem divSize_zero_zero : Double.divSize (Double.fin 0) 0 = Double.nan := by decide

theorem avg_time_no_sequence (elapsed : Nat → Nat → Double) (K : Nat) :
    avg_time elapsed 0 K = Double.nan := by
  unfold avg_time total_time
  rw [List.range_zero, List.foldl_nil]
  exact divSize_zero_zero

set_option exponentiation.threshold 4096 in
theorem risingElapsed_below :
    ∃ K ∈ sweepKs, Double.lt (avg_time risingElapsed 5 K) DBL_MAX = true :=
  ⟨2, by decide, by decide⟩

set_option exponentiation.threshold 4096 in
theorem tiedElapsed_below :
    ∃ K ∈ sweepKs, Double.lt (avg_time tiedElapsed 5 K) DBL_MAX = true :=
  ⟨6, by decide, by decide⟩

set_option exponentiation.threshold 4096 in
theorem tiedElapsed_tie : avg_time tiedElapsed 5 6 = avg_time tiedElapsed 5 8 := by decide

set_option exponentiation.threshold 4096 in
theorem saturated_total_overflows :
    Double.divSize
      ((List.range 5).foldl (fun t _ => Double.add t DBL_MAX) (Double.fin 0)) 5
      = Double.posInf := by decide

theorem saturatedElapsed_not_below :
    ∀ K ∈ sweepKs, Double.lt (avg_time saturatedElapsed 5 K) DBL_MAX = false := by
  intro K _
  have h : avg_time saturatedElapsed 5 K = Double.posInf := saturated_total_overflows
  rw [h]
  rfl

set_option exponentiation.threshold 4096 in
theorem risingElapsed_finite :
    ∀ K ∈ sweepKs, ∀ j, j < 5 → Double.isFinite (risingElapsed K j) = true := by decide

/-- C3 (amended): taking the samples `elapsed K j` as arbitrary finite doubles, whenever at
least one K of the sweep has an average strictly below the initial value of
`best_avg_time`, Part3 reports a K of the sweep, the reported best average is exactly that
K's average (its samples added in order to 0.0 and the sum divided by the number of
sequences, in double arithmetic), and it is less than or equal to the average of every K
of the sweep computed over the same sequences. -/
theorem Part3_best_K_minimal (elapsed : Nat → Nat → Double) (nseq : Nat)
    (hnum : ∀ K ∈ sweepKs, ∀ j, j < nseq → Double.isFinite (elapsed K j) = true)
    (hsize : nseq < 2 ^ 64)
    (h : ∃ K ∈ sweepKs, Double.lt (avg_time elapsed nseq K) DBL_MAX = true) :
    (Part3_sweep elapsed nseq).best_K ∈ sweepKs ∧
    (Part3_sweep elapsed nseq).best_avg_time
      = avg_time elapsed nseq (Part3_sweep elapsed nseq).best_K ∧
    (Part3_sweep elapsed nseq).best_avg_time
      = Double.divSize ((List.range nseq).foldl
          (fun t j => Double.add t (elapsed (Part3_sweep elapsed nseq).best_K j))
          (Double.fin 0)) nseq ∧
    ∀ K ∈ sweepKs,
      Double.le (avg_time elapsed nseq (Part3_sweep elapsed nseq).best_K)
        (avg_time elapsed nseq K) = true := by
  obtain ⟨m1, m2, m3⟩ := sweep_improved elapsed nseq sweepKs
    { best_K := 0, best_avg_time := DBL_MAX } h
  obtain ⟨_, hmin⟩ := sweep_le elapsed nseq sweepKs { best_K := 0, best_avg_time := DBL_MAX }
  have hpos : 0 < nseq := by
    rcases Nat.eq_zero_or_pos nseq with h0 | h0
    · obtain ⟨K, _, hK⟩ := h
      rw [h0, avg_time_no_sequence] at hK
      exact Bool.noConfusion hK
    · exact h0
  refine ⟨m1, m2.symm, m2.symm, ?_⟩
  intro K hK
  have hbest : avg_time elapsed nseq (Part3_sweep elapsed nseq).best_K ≠ Double.nan :=
    avg_time_ne_nan elapsed nseq _ (hnum _ m1) hpos hsize
  have hKn : avg_time elapsed nseq K ≠ Double.nan :=
    avg_time_ne_nan elapsed nseq K (hnum K hK) hpos hsize
  apply Double.le_of_not_lt _ _ hbest hKn
  have := hmin K hK
  unfold Part3_sweep
  rw [m2]
  exact this

/-- Witness for C3: timings that grow with K over five sequences. -/
theorem Part3_best_K_minimal_witness :
    (∀ K ∈ sweepKs, ∀ j, j < 5 → Double.isFinite (risingElapsed K j) = true) ∧
    5 < 2 ^ 64 ∧
    (∃ K ∈ sweepKs, Double.lt (avg_time risingElapsed 5 K) DBL_MAX = true) ∧
    ((Part3_sweep risingElapsed 5).best_K ∈ sweepKs ∧
    (Part3_sweep risingElapsed 5).best_avg_time
      = avg_time risingElapsed 5 (Part3_sweep risingElapsed 5).best_K ∧
    (Part3_sweep risingElapsed 5).best_avg_time
      = Double.divSize ((List.range 5).foldl
          (fun t j => Double.add t (risingElapsed (Part3_sweep risingElapsed 5).best_K j))
          (Double.fin 0)) 5 ∧
    ∀ K ∈ sweepKs,
      Double.le (avg_time risingElapsed 5 (Part3_sweep risingElapsed 5).best_K)
        (avg_time risingElapsed 5 K) = true) :=
  ⟨risingElapsed_finite, by decide, risingElapsed_below,
    Part3_best_K_minimal risingElapsed 5 risingElapsed_finite (by decide) risingElapsed_below⟩

/-- C3 as stated fails: when every sample equals the largest finite double, each sum
overflows to +infinity, no average is strictly below the initial value of `best_avg_time`,
`best_K` keeps its initial value 0 and the reported K is not a K of the sweep. -/
theorem Part3_best_K_minimal_fails :
    (Part3_sweep saturatedElapsed 5).best_K = 0 ∧
    ¬ ((Part3_sweep saturatedElapsed 5).best_K ∈ sweepKs ∧
      (Part3_sweep saturatedElapsed 5).best_avg_time
        = avg_time saturatedElapsed 5 (Part3_sweep saturatedElapsed 5).best_K ∧
      ∀ K ∈ sweepKs,
        Double.le (avg_time saturatedElapsed 5 (Part3_sweep saturatedElapsed 5).best_K)
          (avg_time saturatedElapsed 5 K) = true) := by
  have hr : Part3_sweep saturatedElapsed 5 = { best_K := 0, best_avg_time := DBL_MAX } :=
    sweep_unchanged saturatedElapsed 5 sweepKs _ saturatedElapsed_not_below
  rw [hr]
  refine ⟨rfl, ?_⟩
  rintro ⟨hmem, _⟩
  revert hmem
  decide

/-- C9: whenever at least one K of the sweep has an average strictly below the initial
sentinel, the reported best K is a K of the sweep, the reported average is that K's
average and no K of the sweep has a strictly smaller one (it is the minimum of the
averages that are numbers), and the reported K is the smallest K attaining it; if no
average is below the sentinel the reported best K is 0; and one update replaces the
current best only when the new average is strictly smaller than the current best. -/
theorem Part3_best_K_smallest (elapsed : Nat → Nat → Double) (nseq : Nat) :
    ((∃ K ∈ sweepKs, Double.lt (avg_time elapsed nseq K) DBL_MAX = true) →
      (Part3_sweep elapsed nseq).best_K ∈ sweepKs ∧
      avg_time elapsed nseq (Part3_sweep elapsed nseq).best_K
        = (Part3_sweep elapsed nseq).best_avg_time ∧
      (∀ K ∈ sweepKs,
        Double.lt (avg_time elapsed nseq K) (Part3_sweep elapsed nseq).best_avg_time = false) ∧
      (∀ K ∈ sweepKs, avg_time elapsed nseq K ≠ Double.nan →
        Double.le (Part3_sweep elapsed nseq).best_avg_time (avg_time elapsed nseq K) = true) ∧
      (∀ K ∈ sweepKs, avg_time elapsed nseq K = (Part3_sweep elapsed nseq).best_avg_time →
        (Part3_sweep elapsed nseq).best_K ≤ K)) ∧
    ((¬ ∃ K ∈ sweepKs, Double.lt (avg_time elapsed nseq K) DBL_MAX = true) →
      (Part3_sweep elapsed nseq).best_K = 0) ∧
    (∀ (s : SweepState) (K : Nat), sweepStep elapsed nseq s K ≠ s →
      Double.lt (avg_time elapsed nseq K) s.best_avg_time = true ∧
        sweepStep elapsed nseq s K
          = { best_K := K, best_avg_time := avg_time elapsed nseq K }) := by
  refine ⟨?_, ?_, ?_⟩
  · intro h
    obtain ⟨m1, m2, m3⟩ := sweep_improved elapsed nseq sweepKs
      { best_K := 0, best_avg_time := DBL_MAX } h
    obtain ⟨_, hmin⟩ := sweep_le elapsed nseq sweepKs { best_K := 0, best_avg_time := DBL_MAX }
    refine ⟨m1, m2, hmin, ?_,
      sweep_first elapsed nseq sweepKs sweepKs_sorted { best_K := 0, best_avg_time := DBL_MAX } h⟩
    intro K hK hKn
    exact Double.le_of_not_lt _ _ (Double.ne_nan_of_lt _ _ m3) hKn (hmin K hK)
  · intro h
    have hall : ∀ K ∈ sweepKs, Double.lt (avg_time elapsed nseq K)
        ({ best_K := 0, best_avg_time := DBL_MAX } : SweepState).best_avg_time = false := by
      intro K hK
      cases hb : Double.lt (avg_time elapsed nseq K) DBL_MAX with
      | false => rfl
      | true => exact absurd ⟨K, hK, hb⟩ h
    unfold Part3_sweep
    rw [sweep_unchanged elapsed nseq sweepKs _ hall]
  · intro s K hne
    cases hb : Double.lt (avg_time elapsed nseq K) s.best_avg_time with
    | false => exact absurd (sweepStep_of_not elapsed nseq s K hb) hne
    | true => exact ⟨rfl, sweepStep_of_lt elapsed nseq s K hb⟩

set_option exponentiation.threshold 4096 in
/-- Witness for C9: with timings tied between K = 6 and K = 8 the reported K is 6. -/
theorem Part3_best_K_smallest_witness :
    (∃ K ∈ sweepKs, Double.lt (avg_time tiedElapsed 5 K) DBL_MAX = true) ∧
    avg_time tiedElapsed 5 6 = avg_time tiedElapsed 5 8 ∧
    (Part3_sweep tiedElapsed 5).best_K = 6 ∧
    (Part3_sweep tiedElapsed 5).best_K ∈ sweepKs ∧
    (∀ K ∈ sweepKs, avg_time tiedElapsed 5 K = (Part3_sweep tiedElapsed 5).best_avg_time →
      (Part3_sweep tiedElapsed 5).best_K ≤ K) :=
  ⟨tiedElapsed_below, tiedElapsed_tie, by decide,
    ((Part3_best_K_smallest tiedElapsed 5).1 tiedElapsed_below).1,
    ((Part3_best_K_smallest tiedElapsed 5).1 tiedElapsed_below).2.2.2.2⟩

end CppLab2
